import Mathlib

/-!
Verification development for the `ark-usecase` repository.

The repository has two Rust source files:

* `src/bintree.rs` — a binary-tree data type `BinTree<T>` with constructors
  `Leaf(T)` and `Node { left, right, value }` (both children always present),
  accessors `value`, `is_leaf`, `is_node`, `height`, `leaf_count`, and the
  builder `from_vec` / `build_tree` that folds a non-empty vector of leaves
  into a tree, pairing adjacent nodes level by level and carrying an unpaired
  trailing node up unchanged.
* `src/main.rs` — a nested-MuSig2 demonstration: per-node state in a
  `HashMap<Secp256k1Point, NodeState>`, a recursive `round1` and `round2`
  traversal over the tree, calling external signing primitives.

This file shallowly embeds those definitions: `Vec<T>` becomes `List T`,
panics / `unwrap` failures become `Option` results (`none` = the process
aborts), the external cryptographic primitives of the `nested_musig2` crate
become an abstract record of total functions `Prims`, and the hash map
becomes an association list with `BEq` keys.

Note on the tree type used by `main.rs`: `round1`/`round2` in `main.rs`
pattern-match the `right` child of a node as an `Option` (with a
`panic!("Should not reach here")` when it is absent), so the traversals are
embedded over a tree type `MTree` whose nodes carry `right : Option (MTree K)`;
the builder of `bintree.rs` always produces both children, reflected by the
injection `toM` which never produces a missing right child.
-/

section BinTreeDef

/-- Embedding of `BinTree<T>` from `src/bintree.rs`: a leaf carrying a value,
or a node with a left child, a right child and a cached value. -/
inductive BinTree (T : Type) where
  | leaf (value : T)
  | node (left : BinTree T) (right : BinTree T) (value : T)
  deriving DecidableEq, Repr

variable {T : Type}

/-- Embedding of `BinTree::value`: the value stored at the root. -/
def BinTree.value : BinTree T → T
  | .leaf v => v
  | .node _ _ v => v

/-- Embedding of `BinTree::is_leaf`. -/
def BinTree.is_leaf : BinTree T → Bool
  | .leaf _ => true
  | .node _ _ _ => false

/-- Embedding of `BinTree::is_node`. -/
def BinTree.is_node : BinTree T → Bool
  | .leaf _ => false
  | .node _ _ _ => true

/-- Embedding of `BinTree::height`: a leaf has height 1, a node has height
`1 + max(left.height, right.height)`. -/
def BinTree.height : BinTree T → Nat
  | .leaf _ => 1
  | .node l r _ => 1 + max l.height r.height

/-- Embedding of `BinTree::leaf_count`: a leaf counts 1, a node the sum of
its children's counts. -/
def BinTree.leaf_count : BinTree T → Nat
  | .leaf _ => 1
  | .node l r _ => l.leaf_count + r.leaf_count

/-- Number of internal nodes (subtrees for which `is_node` is true):
a leaf has none, a node has one plus those of its children. -/
def BinTree.node_count : BinTree T → Nat
  | .leaf _ => 0
  | .node l r _ => 1 + l.node_count + r.node_count

/-- The leaf values of a tree in left-to-right depth-first order (the
`collect_leaves` traversal of the repository's test suite). -/
def leaves_list : BinTree T → List T
  | .leaf v => [v]
  | .node l r _ => leaves_list l ++ leaves_list r

/-- Embedding of one pass of the pairing loop inside `BinTree::build_tree`:
for `i in (0..n).step_by(2)`, adjacent nodes `nodes[i]` and `nodes[i+1]` are
combined into `Self::node(left, right, agg(left.value, right.value))`; when
`i + 1 = n` the unpaired trailing node is pushed unchanged. -/
def pairUp (agg : T → T → T) : List (BinTree T) → List (BinTree T)
  | [] => []
  | [x] => [x]
  | x :: y :: rest => BinTree.node x y (agg x.value y.value) :: pairUp agg rest

theorem pairUp_length (agg : T → T → T) :
    ∀ l : List (BinTree T), (pairUp agg l).length = (l.length + 1) / 2
  | [] => by simp [pairUp]
  | [x] => by simp [pairUp]
  | x :: y :: rest => by
      simp only [pairUp, List.length_cons, pairUp_length agg rest]
      omega

/-- Embedding of `BinTree::build_tree`: the `assert!` on an empty input
becomes `none`; a singleton list yields its element; otherwise one pairing
pass runs and the builder recurses on the shorter list. -/
def build_tree (agg : T → T → T) : List (BinTree T) → Option (BinTree T)
  | [] => none
  | [t] => some t
  | x :: y :: rest => build_tree agg (pairUp agg (x :: y :: rest))
termination_by l => l.length
decreasing_by
  simp only [pairUp_length, List.length_cons]
  omega

/-- Embedding of `BinTree::from_vec`: the `assert!` on an empty vector
becomes `none`; otherwise every value is wrapped into a leaf and
`build_tree` folds the leaves into a tree. -/
def from_vec (leaves : List T) (agg : T → T → T) : Option (BinTree T) :=
  if leaves.isEmpty then none
  else build_tree agg (leaves.map BinTree.leaf)

theorem build_tree_nil (agg : T → T → T) : build_tree agg ([] : List (BinTree T)) = none := by
  simp [build_tree]

theorem build_tree_single (agg : T → T → T) (t : BinTree T) :
    build_tree agg [t] = some t := by
  simp [build_tree]

theorem build_tree_cons2 (agg : T → T → T) (x y : BinTree T) (rest : List (BinTree T)) :
    build_tree agg (x :: y :: rest) = build_tree agg (pairUp agg (x :: y :: rest)) := by
  rw [build_tree]

end BinTreeDef

section MainDef

/-- The tree as pattern-matched by `round1`/`round2` in `src/main.rs`: the
right child of a node is matched as an `Option` (`if let Some(node) =
right.as_ref().as_ref()`), so it is embedded as `Option (MTree K)`. -/
inductive MTree (K : Type) where
  | leaf (value : K)
  | node (left : MTree K) (right : Option (MTree K)) (value : K)

variable {K St Out Sc M : Type}

/-- The `value` accessor on the tree traversed by `main.rs`. -/
def MTree.value : MTree K → K
  | .leaf v => v
  | .node _ _ v => v

/-- Injection of the builder's tree (both children always present) into the
tree type traversed by `main.rs`; it never produces a missing right child. -/
def toM : BinTree K → MTree K
  | .leaf v => .leaf v
  | .node l r v => .node (toM l) (some (toM r)) v

/-- Embedding of the `NodeState` struct of `src/main.rs`: per-node signing
state, every field optional. `K` stands for `Secp256k1Point`, `St` for
`Round1State`, `Out` for `Round1Out` and `Sc` for `Secp256k1Scalar`. -/
structure NodeState (K St Out Sc : Type) where
  secret_key : Option Sc
  state : Option St
  out : Option Out
  out_internal : Option Out
  out_prime : Option Sc
  state_prime : Option K
  deriving DecidableEq, Repr

/-- The `HashMap<Secp256k1Point, NodeState>` of `main.rs`, modelled as an
association list queried through `BEq` on the keys. -/
def StateMap (K St Out Sc : Type) : Type := List (K × NodeState K St Out Sc)

/-- Lookup in the state map (`HashMap::get` / `get_mut` presence check). -/
def smGet [BEq K] : StateMap K St Out Sc → K → Option (NodeState K St Out Sc)
  | [], _ => none
  | (k, v) :: rest, key => if k == key then some v else smGet rest key

/-- Insertion in the state map (`HashMap::insert`): replaces the entry of an
existing key, otherwise appends a fresh one. -/
def smInsert [BEq K] : StateMap K St Out Sc → K → NodeState K St Out Sc →
    StateMap K St Out Sc
  | [], key, v => [(key, v)]
  | (k, v') :: rest, key, v =>
      if k == key then (key, v) :: rest else (k, v') :: smInsert rest key v

/-- In-place mutation through `HashMap::get_mut`: rewrite the entry of the
given key with `f`, leaving the map unchanged when the key is absent. -/
def smUpdate [BEq K] : StateMap K St Out Sc → K →
    (NodeState K St Out Sc → NodeState K St Out Sc) → StateMap K St Out Sc
  | [], _, _ => []
  | (k, v) :: rest, key, f =>
      if k == key then (k, f v) :: rest else (k, v) :: smUpdate rest key f

/-- Abstract record of the external `nested_musig2` primitives called by
`main.rs`, as total functions (their `Result` wrappers are unwrapped at every
call site in `main.rs` and are not part of the traversal logic): `sign_round1`,
`sign_agg` (on a two-element slice), `sign_agg_ext` (the `Params::default()`
argument is a constant and is dropped), `sign_prime` and `sign_agg_prime`
(on a two-element slice). `M` is the type of messages. -/
structure Prims (K St Out Sc M : Type) where
  sign_round1 : Nat → Out × St
  sign_agg : Out → Out → Out
  sign_agg_ext : Out → K → Out
  sign_prime : St → List Out → Sc → M → List (List K) → K × Sc
  sign_agg_prime : K × Sc → K × Sc → K × Sc

/-- Embedding of `round1` from `src/main.rs`. A leaf runs `sign_round1(2)`
and, only when the leaf's public key has a store entry (`if let Some(state) =
state_map.get_mut(&pk)` with no else branch), records the output and state;
an absent entry is silently skipped. An internal node recurses into the left
child, reads its round-1 output (both `unwrap`s are fatal, i.e. `none`),
aggregates with the right child's output when a right child exists, extends
with the node's own key via `sign_agg_ext` and inserts the node's state under
its key. -/
def round1 [BEq K] (P : Prims K St Out Sc M) :
    MTree K → StateMap K St Out Sc → Option (StateMap K St Out Sc)
  | .leaf pk, m =>
      let os := P.sign_round1 2
      match smGet m pk with
      | some _ => some (smUpdate m pk
          (fun s => { s with out := some os.1, state := some os.2 }))
      | none => some m
  | .node left (some r) v, m => do
      let m1 ← round1 P left m
      let lstate ← smGet m1 left.value
      let lout ← lstate.out
      let m2 ← round1 P r m1
      let rstate ← smGet m2 r.value
      let rout ← rstate.out
      let out_internal := P.sign_agg lout rout
      let out := P.sign_agg_ext out_internal v
      some (smInsert m2 v
        ⟨none, none, some out, some out_internal, none, none⟩)
  | .node left none v, m => do
      let m1 ← round1 P left m
      let lstate ← smGet m1 left.value
      let lout ← lstate.out
      let out := P.sign_agg_ext lout v
      some (smInsert m1 v ⟨none, none, some out, some lout, none, none⟩)

/-- The tail of `round2`'s two-children branch in `src/main.rs`, after both
recursive calls have returned with store `m2`: read both children's round-2
state and output (every `unwrap` fatal), combine them with `sign_agg_prime`,
and store the result under this node's key (whose `get_mut` must succeed). -/
def round2_combine [BEq K] (P : Prims K St Out Sc M) (lv rv v : K)
    (m2 : StateMap K St Out Sc) : Option (StateMap K St Out Sc) := do
  let ls ← smGet m2 lv
  let l_state ← ls.state_prime
  let l_out ← ls.out_prime
  let rs ← smGet m2 rv
  let r_state ← rs.state_prime
  let r_out ← rs.out_prime
  let res := P.sign_agg_prime (l_state, l_out) (r_state, r_out)
  let _ ← smGet m2 v
  some (smUpdate m2 v
    (fun s => { s with out_prime := some res.2, state_prime := some res.1 }))

/-- Embedding of `round2` from `src/main.rs`. A leaf reads its store entry,
round-1 state and secret key (every `unwrap` fatal), calls `sign_prime` with
the outer-context outputs and the authentication path, and records the
result. An internal node reads its own `out_internal` (fatal on absence),
appends it to the outer-context list; with a right child present it extends
the left child's path with the right sibling's value and vice versa, recurses
into both children and combines their results via `round2_combine`; with no
right child it hits `panic!("Should not reach here")`, i.e. `none`. -/
def round2 [BEq K] (P : Prims K St Out Sc M) :
    MTree K → StateMap K St Out Sc → M → List Out → List (List K) →
    Option (StateMap K St Out Sc)
  | .leaf pk, m, msg, outs_by_depth, merkle_path => do
      let st ← smGet m pk
      let state1 ← st.state
      let sk ← st.secret_key
      let res := P.sign_prime state1 outs_by_depth sk msg merkle_path
      some (smUpdate m pk
        (fun s => { s with out_prime := some res.2, state_prime := some res.1 }))
  | .node left (some r) v, m, msg, outs_by_depth, merkle_path => do
      let st ← smGet m v
      let out_d ← st.out_internal
      let ext_outs := outs_by_depth ++ [out_d]
      let l_path := merkle_path ++ [[r.value]]
      let r_path := merkle_path ++ [[left.value]]
      let m1 ← round2 P left m msg ext_outs l_path
      let m2 ← round2 P r m1 msg ext_outs r_path
      round2_combine P left.value r.value v m2
  | .node _ none v, m, _, _, _ => do
      let st ← smGet m v
      let _ ← st.out_internal
      none

end MainDef

section BinTreeProofs

variable {T U : Type}

theorem pairUp_ne_nil (agg : T → T → T) (l : List (BinTree T)) (h : l ≠ []) :
    pairUp agg l ≠ [] := by
  intro hcon
  have hlen := pairUp_length agg l
  rw [hcon] at hlen
  have : l.length ≠ 0 := fun h0 => h (List.length_eq_zero.mp h0)
  simp at hlen
  omega

theorem pairUp_join (agg : T → T → T) :
    ∀ l : List (BinTree T),
      ((pairUp agg l).map leaves_list).flatten = (l.map leaves_list).flatten
  | [] => rfl
  | [x] => rfl
  | x :: y :: rest => by
      simp only [pairUp, List.map_cons, List.flatten_cons, leaves_list,
        pairUp_join agg rest, List.append_assoc]

theorem join_map_singleton : ∀ l : List T, (l.map (fun x => [x])).flatten = l
  | [] => rfl
  | x :: rest => by simp only [List.map_cons, List.flatten_cons, join_map_singleton rest]; rfl

theorem build_tree_leaves_fuel (agg : T → T → T) :
    ∀ (fuel : Nat) (ts : List (BinTree T)), ts.length ≤ fuel → ts ≠ [] →
      ∃ t, build_tree agg ts = some t ∧
        leaves_list t = (ts.map leaves_list).flatten := by
  intro fuel
  induction fuel with
  | zero =>
      intro ts h hne
      cases ts with
      | nil => exact absurd rfl hne
      | cons x rest => simp at h
  | succ n ih =>
      intro ts h hne
      match ts with
      | [] => exact absurd rfl hne
      | [t] => exact ⟨t, build_tree_single agg t, by simp⟩
      | x :: y :: rest =>
          have hlen : (pairUp agg (x :: y :: rest)).length ≤ n := by
            rw [pairUp_length]
            simp only [List.length_cons] at h ⊢
            omega
          obtain ⟨t, hbt, hlv⟩ := ih _ hlen (pairUp_ne_nil agg _ (by simp))
          refine ⟨t, ?_, ?_⟩
          · rw [build_tree_cons2]; exact hbt
          · rw [hlv, pairUp_join]

theorem from_vec_some (l : List T) (agg : T → T → T) (hne : l ≠ []) :
    ∃ t, from_vec l agg = some t ∧ leaves_list t = l := by
  obtain ⟨t, hbt, hlv⟩ :=
    build_tree_leaves_fuel agg (l.map BinTree.leaf).length (l.map BinTree.leaf)
      le_rfl (by simpa using hne)
  refine ⟨t, ?_, ?_⟩
  · rw [from_vec, if_neg (by simpa [List.isEmpty_iff] using hne)]
    exact hbt
  · rw [hlv, List.map_map]
    exact join_map_singleton l

theorem from_vec_ne_nil (l : List T) (agg : T → T → T) (t : BinTree T)
    (h : from_vec l agg = some t) : l ≠ [] := by
  intro hl
  subst hl
  simp [from_vec] at h

theorem from_vec_leaves (l : List T) (agg : T → T → T) (t : BinTree T)
    (h : from_vec l agg = some t) : leaves_list t = l := by
  obtain ⟨t', h1, h2⟩ := from_vec_some l agg (from_vec_ne_nil l agg t h)
  rw [h1] at h
  cases h
  exact h2

theorem leaf_count_eq_length (t : BinTree T) :
    t.leaf_count = (leaves_list t).length := by
  induction t with
  | leaf v => rfl
  | node l r v ihl ihr =>
      simp [BinTree.leaf_count, leaves_list, ihl, ihr]

theorem node_count_succ (t : BinTree T) : t.node_count + 1 = t.leaf_count := by
  induction t with
  | leaf v => rfl
  | node l r v ihl ihr =>
      simp only [BinTree.node_count, BinTree.leaf_count]
      omega

/-- C1: for every non-empty input of length `k` and every combine function, the
tree built by `from_vec` exists, has exactly `k` leaves as counted by
`leaf_count`, and its leaf values in left-to-right depth-first order are the
input values in their original order, for any value type. -/
theorem C1_from_vec_leaf_count_and_order (T : Type) (l : List T)
    (agg : T → T → T) (hne : l ≠ []) :
    ∃ t, from_vec l agg = some t ∧ t.leaf_count = l.length ∧
      leaves_list t = l := by
  obtain ⟨t, h1, h2⟩ := from_vec_some l agg hne
  exact ⟨t, h1, by rw [leaf_count_eq_length, h2], h2⟩

theorem C1_witness :
    ([1, 2, 3] : List Nat) ≠ [] ∧
      ∃ t, from_vec [1, 2, 3] (fun a b => a + b) = some t ∧
        t.leaf_count = ([1, 2, 3] : List Nat).length ∧
        leaves_list t = [1, 2, 3] :=
  ⟨by decide, C1_from_vec_leaf_count_and_order Nat [1, 2, 3] (fun a b => a + b)
    (by decide)⟩

/-- C7: building a tree from an empty sequence fails (the `assert!` panic,
embedded as `none`); `from_vec` never returns any tree for empty input. -/
theorem C7_from_vec_empty_none (T : Type) (agg : T → T → T) :
    from_vec ([] : List T) agg = none := rfl

/-- C10: every tree built by `from_vec` from an input of length `k` has
exactly `k - 1` internal nodes, hence the combine function is applied exactly
`k - 1` times, one application per internal node (each node value being one
application by the invariant of C2). -/
theorem C10_from_vec_node_count (T : Type) (l : List T) (agg : T → T → T)
    (t : BinTree T) (h : from_vec l agg = some t) :
    t.node_count = l.length - 1 := by
  have hl := from_vec_leaves l agg t h
  have h1 := node_count_succ t
  have h2 := leaf_count_eq_length t
  rw [hl] at h2
  omega

/-- Concrete sample combine function used by the witnesses. -/
def addAgg : Nat → Nat → Nat := fun a b => a + b

/-- The tree `from_vec` builds from `[1, 2, 3]` with `addAgg`: the unpaired
trailing leaf `3` is carried up and becomes the right child of the root. -/
def tree3 : BinTree Nat :=
  .node (.node (.leaf 1) (.leaf 2) 3) (.leaf 3) 6

theorem from_vec_three : from_vec [1, 2, 3] addAgg = some tree3 := by
  rw [from_vec]
  simp only [List.isEmpty_cons, List.map_cons, List.map_nil, if_false,
    Bool.false_eq_true]
  rw [build_tree_cons2]
  simp only [pairUp, BinTree.value, addAgg]
  rw [build_tree_cons2]
  simp only [pairUp, BinTree.value]
  rw [build_tree_single]
  rfl

theorem C10_witness :
    BinTree.node_count tree3 = ([1, 2, 3] : List Nat).length - 1 :=
  C10_from_vec_node_count Nat [1, 2, 3] addAgg tree3 from_vec_three

/-- The invariant claimed for every tree built by `from_vec`: the value of
every internal node is the combine function applied to the values of its two
children (every node of the `BinTree` type has both children). -/
def agg_invariant (agg : T → T → T) : BinTree T → Prop
  | .leaf _ => True
  | .node l r v =>
      v = agg l.value r.value ∧ agg_invariant agg l ∧ agg_invariant agg r

theorem pairUp_invariant (agg : T → T → T) :
    ∀ l : List (BinTree T), (∀ s ∈ l, agg_invariant agg s) →
      ∀ t ∈ pairUp agg l, agg_invariant agg t
  | [], _ => by simp [pairUp]
  | [x], h => by simpa [pairUp] using h
  | x :: y :: rest, h => by
      intro t ht
      simp only [pairUp, List.mem_cons] at ht
      rcases ht with rfl | ht
      · exact ⟨rfl, h x (by simp), h y (by simp)⟩
      · exact pairUp_invariant agg rest (fun s hs => h s (by simp [hs])) t ht

theorem build_tree_invariant (agg : T → T → T) :
    ∀ (fuel : Nat) (ts : List (BinTree T)), ts.length ≤ fuel →
      (∀ s ∈ ts, agg_invariant agg s) →
      ∀ t, build_tree agg ts = some t → agg_invariant agg t := by
  intro fuel
  induction fuel with
  | zero =>
      intro ts h _ t ht
      cases ts with
      | nil => rw [build_tree_nil] at ht; cases ht
      | cons x rest => simp at h
  | succ n ih =>
      intro ts hlen hinv t ht
      match ts with
      | [] => rw [build_tree_nil] at ht; cases ht
      | [s] =>
          rw [build_tree_single] at ht
          cases ht
          exact hinv _ (by simp)
      | x :: y :: rest =>
          rw [build_tree_cons2] at ht
          refine ih _ ?_ (pairUp_invariant agg _ hinv) t ht
          rw [pairUp_length]
          simp only [List.length_cons] at hlen ⊢
          omega

/-- C2: in every tree built by `from_vec`, every internal node's value is the
caller's combine function applied to its two children's values (the node type
always carries both children, so the propagation case never materialises as a
node); no internal node carries an independently set value. -/
theorem C2_from_vec_agg_invariant (T : Type) (l : List T) (agg : T → T → T)
    (t : BinTree T) (h : from_vec l agg = some t) : agg_invariant agg t := by
  have hne : ¬l.isEmpty = true := by
    intro hl
    rw [from_vec, if_pos hl] at h
    cases h
  rw [from_vec, if_neg hne] at h
  refine build_tree_invariant agg (l.map BinTree.leaf).length _ le_rfl ?_ t h
  intro s hs
  simp only [List.mem_map] at hs
  obtain ⟨x, _, rfl⟩ := hs
  exact True.intro

theorem C2_witness : agg_invariant addAgg tree3 :=
  C2_from_vec_agg_invariant Nat [1, 2, 3] addAgg tree3 from_vec_three

theorem pairUp_height_le (agg : T → T → T) (b : Nat) :
    ∀ l : List (BinTree T), (∀ s ∈ l, s.height ≤ b) →
      ∀ t ∈ pairUp agg l, t.height ≤ b + 1
  | [], _ => by simp [pairUp]
  | [x], h => by
      intro t ht
      simp only [pairUp, List.mem_singleton] at ht
      subst ht
      exact le_trans (h t (by simp)) (Nat.le_succ b)
  | x :: y :: rest, h => by
      intro t ht
      simp only [pairUp, List.mem_cons] at ht
      rcases ht with rfl | ht
      · have hx := h x (by simp)
        have hy := h y (by simp)
        have hm : max x.height y.height ≤ b := max_le hx hy
        simp only [BinTree.height]
        omega
      · exact pairUp_height_le agg b rest (fun s hs => h s (by simp [hs])) t ht

theorem build_tree_height_fuel (agg : T → T → T) :
    ∀ (fuel : Nat) (x : BinTree T) (rest : List (BinTree T)),
      rest.length + 1 ≤ fuel →
      (∀ s ∈ rest, s.height ≤ x.height) →
      ∀ t, build_tree agg (x :: rest) = some t →
        t.height = x.height + Nat.clog 2 (rest.length + 1) := by
  intro fuel
  induction fuel with
  | zero =>
      intro x rest h
      simp at h
  | succ n ih =>
      intro x rest hlen hb t ht
      match rest with
      | [] =>
          rw [build_tree_single] at ht
          cases ht
          simp [Nat.clog_one_right]
      | y :: rest' =>
          rw [build_tree_cons2] at ht
          have hxy : max x.height y.height = x.height := max_eq_left (hb y (by simp))
          have hlen' : (pairUp agg rest').length + 1 ≤ n := by
            rw [pairUp_length]
            simp only [List.length_cons] at hlen
            omega
          have hbound : ∀ s ∈ pairUp agg rest',
              s.height ≤ (BinTree.node x y (agg x.value y.value)).height := by
            intro s hs
            have hple := pairUp_height_le agg x.height rest'
              (fun s hs => hb s (by simp [hs])) s hs
            simp only [BinTree.height, hxy]
            omega
          have hmain := ih (BinTree.node x y (agg x.value y.value))
            (pairUp agg rest') hlen' hbound t (by
              simpa only [pairUp] using ht)
          rw [hmain]
          simp only [BinTree.height, hxy, pairUp_length, List.length_cons]
          rw [Nat.clog_of_two_le (b := 2) (n := rest'.length + 1 + 1)
            (by norm_num) (by omega)]
          have harg : (rest'.length + 1 + 1 + 2 - 1) / 2 = (rest'.length + 1) / 2 + 1 := by
            omega
          rw [harg]
          omega

theorem from_vec_height (l : List T) (agg : T → T → T) (t : BinTree T)
    (h : from_vec l agg = some t) : t.height = Nat.clog 2 l.length + 1 := by
  match l with
  | [] => simp [from_vec] at h
  | x :: l' =>
      rw [from_vec, if_neg (by simp)] at h
      have hmain := build_tree_height_fuel agg (l'.length + 1) (BinTree.leaf x)
        (l'.map BinTree.leaf) (by simp)
        (by
          intro s hs
          simp only [List.mem_map] at hs
          obtain ⟨z, _, rfl⟩ := hs
          exact le_refl _) t (by simpa using h)
      rw [hmain]
      simp only [BinTree.height, List.length_map, List.length_cons]
      omega

theorem clog_two_le_pred (k : Nat) (hk : 1 ≤ k) : Nat.clog 2 k ≤ k - 1 := by
  have h1 : k ≤ 2 ^ (k - 1) := by
    have := Nat.lt_two_pow (k - 1)
    omega
  have h2 := (Nat.le_pow_iff_clog_le (b := 2) (by norm_num)).mp h1
  exact h2

/-- C5: for every non-empty input of length `k`, the height of the tree built
by `from_vec` lies in `[1, k]`, and it equals `⌊log2 k⌋ + 1` exactly when `k`
is a power of two. (The exact height is `⌈log2 k⌉ + 1`.) -/
theorem C5_from_vec_height_bounds (T : Type) (l : List T) (agg : T → T → T)
    (t : BinTree T) (h : from_vec l agg = some t) :
    1 ≤ t.height ∧ t.height ≤ l.length ∧
      (t.height = Nat.log 2 l.length + 1 ↔ ∃ j, l.length = 2 ^ j) := by
  have hk : 1 ≤ l.length :=
    List.length_pos.mpr (from_vec_ne_nil l agg t h)
  have hh := from_vec_height l agg t h
  refine ⟨by omega, ?_, ?_⟩
  · have := clog_two_le_pred l.length hk
    omega
  · constructor
    · intro heq
      have hcl : Nat.clog 2 l.length = Nat.log 2 l.length := by omega
      refine ⟨Nat.log 2 l.length, ?_⟩
      have h1 : 2 ^ Nat.log 2 l.length ≤ l.length :=
        Nat.pow_log_le_self 2 (by omega)
      have h2 : l.length ≤ 2 ^ Nat.clog 2 l.length :=
        Nat.le_pow_clog (by norm_num) _
      rw [hcl] at h2
      omega
    · rintro ⟨j, hj⟩
      rw [hh, hj, Nat.clog_pow 2 j (by norm_num), Nat.log_pow (by norm_num) j]

theorem C5_witness :
    1 ≤ tree3.height ∧ tree3.height ≤ ([1, 2, 3] : List Nat).length ∧
      (tree3.height = Nat.log 2 ([1, 2, 3] : List Nat).length + 1 ↔
        ∃ j, ([1, 2, 3] : List Nat).length = 2 ^ j) :=
  C5_from_vec_height_bounds Nat [1, 2, 3] addAgg tree3 from_vec_three

/-- Structural skeleton of a tree: the arrangement of leaves and internal
nodes with all values erased. -/
def shape : BinTree T → BinTree Unit
  | .leaf _ => .leaf ()
  | .node l r _ => .node (shape l) (shape r) ()

theorem pairUp_shape (agg : T → T → T) :
    ∀ l : List (BinTree T),
      (pairUp agg l).map shape = pairUp (fun _ _ => ()) (l.map shape)
  | [] => rfl
  | [x] => rfl
  | x :: y :: rest => by
      simp only [pairUp, List.map_cons, shape, pairUp_shape agg rest]

theorem build_tree_shape_fuel (agg : T → T → T) :
    ∀ (fuel : Nat) (ts : List (BinTree T)), ts.length ≤ fuel →
      ∀ t, build_tree agg ts = some t →
        build_tree (fun _ _ => ()) (ts.map shape) = some (shape t) := by
  intro fuel
  induction fuel with
  | zero =>
      intro ts h t ht
      cases ts with
      | nil => rw [build_tree_nil] at ht; cases ht
      | cons x rest => simp at h
  | succ n ih =>
      intro ts hlen t ht
      match ts with
      | [] => rw [build_tree_nil] at ht; cases ht
      | [s] =>
          rw [build_tree_single] at ht
          cases ht
          simp [build_tree_single]
      | x :: y :: rest =>
          rw [build_tree_cons2] at ht
          have hlen' : (pairUp agg (x :: y :: rest)).length ≤ n := by
            rw [pairUp_length]
            simp only [List.length_cons] at hlen ⊢
            omega
          have hrec := ih _ hlen' t ht
          rw [pairUp_shape] at hrec
          simp only [List.map_cons]
          rw [build_tree_cons2]
          simpa only [List.map_cons] using hrec

theorem map_fun_const (c : U) : ∀ l : List T,
    l.map (fun _ => c) = List.replicate l.length c
  | [] => rfl
  | x :: rest => by
      simp only [List.map_cons, List.length_cons, List.replicate_succ,
        map_fun_const c rest]

theorem from_vec_shape (l : List T) (agg : T → T → T) (t : BinTree T)
    (h : from_vec l agg = some t) :
    build_tree (fun _ _ => ()) (List.replicate l.length (BinTree.leaf ())) =
      some (shape t) := by
  have hne : ¬l.isEmpty = true := by
    intro hl
    rw [from_vec, if_pos hl] at h
    cases h
  rw [from_vec, if_neg hne] at h
  have hrec := build_tree_shape_fuel agg (l.map BinTree.leaf).length _ le_rfl t h
  rw [List.map_map] at hrec
  have hmap : l.map (shape ∘ BinTree.leaf) =
      List.replicate l.length (BinTree.leaf ()) := by
    have : l.map (shape ∘ BinTree.leaf) = l.map (fun _ => BinTree.leaf ()) := rfl
    rw [this, map_fun_const]
  rw [hmap] at hrec
  exact hrec

/-- C6: the structural shape of the tree built by `from_vec` is a function of
the input length alone: two builds from inputs of equal length, over any
value types and with any combine functions, have identical arrangements of
leaves and internal nodes. -/
theorem C6_from_vec_shape_only_length (T U : Type) (l1 : List T) (l2 : List U)
    (agg1 : T → T → T) (agg2 : U → U → U) (t1 : BinTree T) (t2 : BinTree U)
    (hlen : l1.length = l2.length)
    (h1 : from_vec l1 agg1 = some t1) (h2 : from_vec l2 agg2 = some t2) :
    shape t1 = shape t2 := by
  have hs1 := from_vec_shape l1 agg1 t1 h1
  have hs2 := from_vec_shape l2 agg2 t2 h2
  rw [hlen] at hs1
  rw [hs1] at hs2
  exact Option.some.inj hs2

theorem C6_witness : shape tree3 = shape (BinTree.node
    (BinTree.node (BinTree.leaf true) (BinTree.leaf false) false)
    (BinTree.leaf true) false) :=
  C6_from_vec_shape_only_length Nat Bool [1, 2, 3] [true, false, true] addAgg
    (fun a b => a && b) tree3
    (BinTree.node (BinTree.node (BinTree.leaf true) (BinTree.leaf false) false)
      (BinTree.leaf true) false)
    rfl from_vec_three (by
      rw [from_vec]
      simp only [List.isEmpty_cons, List.map_cons, List.map_nil, if_false,
        Bool.false_eq_true]
      rw [build_tree_cons2]
      simp only [pairUp, BinTree.value]
      rw [build_tree_cons2]
      simp only [pairUp, BinTree.value]
      rw [build_tree_single]
      rfl)

/-- Sub-node detector on the traversal tree type: true when some internal
node has a missing right child. -/
def hasDegenerate : MTree T → Bool
  | .leaf _ => false
  | .node _ none _ => true
  | .node l (some r) _ => hasDegenerate l || hasDegenerate r

theorem C8_counterexample :
    from_vec [1, 2, 3] addAgg = some tree3 ∧
      hasDegenerate (toM tree3) = false :=
  ⟨from_vec_three, rfl⟩

/-- C8 (amended): for an input whose pairing level has an odd count, such as
`k = 3`, the unpaired trailing value is carried up unchanged as an
undecorated subtree and becomes the full right child of a higher node; no
internal node lacking a right child exists in the result (the node type of
`bintree.rs` always carries both children). -/
theorem C8_amended_odd_level_carries_trailing (T : Type) (x1 x2 x3 : T)
    (agg : T → T → T) :
    from_vec [x1, x2, x3] agg =
      some (BinTree.node
        (BinTree.node (BinTree.leaf x1) (BinTree.leaf x2) (agg x1 x2))
        (BinTree.leaf x3) (agg (agg x1 x2) x3)) ∧
      hasDegenerate (toM (BinTree.node
        (BinTree.node (BinTree.leaf x1) (BinTree.leaf x2) (agg x1 x2))
        (BinTree.leaf x3) (agg (agg x1 x2) x3))) = false := by
  constructor
  · rw [from_vec]
    simp only [List.isEmpty_cons, List.map_cons, List.map_nil, if_false,
      Bool.false_eq_true]
    rw [build_tree_cons2]
    simp only [pairUp, BinTree.value]
    rw [build_tree_cons2]
    simp only [pairUp, BinTree.value]
    rw [build_tree_single]
  · rfl

end BinTreeProofs

section MainProofs

variable {K St Out Sc M : Type}

/-- C3: during round 2, at an internal node with two children, the node's
pre-extension round-1 aggregate `out_internal` is appended to the
outer-context list before descending; the left child is recursed into with
the authentication path extended by the right sibling's value, the right
child with the path extended by the left sibling's value; and after both
children return their round-2 results are combined through the round-2
aggregation primitive (`round2_combine`, which calls `sign_agg_prime` and
stores the result under this node's key). -/
theorem C3_round2_internal_two_children (K St Out Sc M : Type) [BEq K]
    (P : Prims K St Out Sc M) (l r : MTree K) (v : K)
    (m : StateMap K St Out Sc) (msg : M) (outs : List Out)
    (path : List (List K)) (st : NodeState K St Out Sc) (od : Out)
    (hst : smGet m v = some st) (hod : st.out_internal = some od) :
    round2 P (.node l (some r) v) m msg outs path =
      (round2 P l m msg (outs ++ [od]) (path ++ [[r.value]])).bind (fun m1 =>
        (round2 P r m1 msg (outs ++ [od]) (path ++ [[l.value]])).bind (fun m2 =>
          round2_combine P l.value r.value v m2)) := by
  rw [round2, hst]
  simp only [Option.bind_eq_bind, Option.some_bind, hod]

/-- Concrete primitives over `Nat` used by the witnesses of the `main.rs`
claims. -/
def natPrims : Prims Nat Nat Nat Nat Nat where
  sign_round1 := fun n => (n, n + 1)
  sign_agg := fun a b => a + b
  sign_agg_ext := fun o k => o + 10 * k
  sign_prime := fun st outs sk msg path =>
    (st + outs.sum + sk + msg + path.length, st)
  sign_agg_prime := fun p q => (p.1 + q.1, p.2 + q.2)

/-- A concrete store entry whose `out_internal` field is set. -/
def st7 : NodeState Nat Nat Nat Nat :=
  ⟨none, none, none, some 7, none, none⟩

/-- A concrete store holding `st7` under the key `3`. -/
def m7 : StateMap Nat Nat Nat Nat := [(3, st7)]

theorem C3_witness :
    round2 natPrims (.node (.leaf 1) (some (.leaf 2)) 3) m7 0 [] [] =
      (round2 natPrims (.leaf 1) m7 0 ([] ++ [7])
          ([] ++ [[MTree.value (.leaf 2)]])).bind (fun m1 =>
        (round2 natPrims (.leaf 2) m1 0 ([] ++ [7])
            ([] ++ [[MTree.value (.leaf 1)]])).bind (fun m2 =>
          round2_combine natPrims (MTree.value (.leaf 1))
            (MTree.value (.leaf 2)) 3 m2)) :=
  C3_round2_internal_two_children Nat Nat Nat Nat Nat natPrims
    (.leaf 1) (.leaf 2) 3 m7 0 [] [] st7 7 rfl rfl

/-- C4: round 2 at an internal node with only a left child (no right child)
fails fatally — the embedding of `panic!("Should not reach here")` — for
every store, message, outer context and path; it never produces a round-2
output for such a node. -/
theorem C4_round2_missing_right_fatal (K St Out Sc M : Type) [BEq K]
    (P : Prims K St Out Sc M) (l : MTree K) (v : K)
    (m : StateMap K St Out Sc) (msg : M) (outs : List Out)
    (path : List (List K)) :
    round2 P (.node l none v) m msg outs path = none := by
  rw [round2]
  cases hs : smGet m v with
  | none => rfl
  | some st =>
      simp only [Option.bind_eq_bind, Option.some_bind]
      cases st.out_internal <;> rfl

theorem C9_counterexample :
    round1 natPrims (.leaf 0) ([] : StateMap Nat Nat Nat Nat) = some [] ∧
      round1 natPrims (.leaf 0) ([] : StateMap Nat Nat Nat Nat) ≠ none := by
  constructor
  · rw [round1]
    rfl
  · rw [round1]
    intro hcon
    cases hcon

/-- C9 (amended): whenever round 1 or round 2 looks up a node's entry (or a
required field of it) in the per-node state store and it is absent, the
traversal fails fatally — at round 2's leaf lookup, at round 1's
internal-node lookups of the left and right children's round-1 outputs, at
round 2's internal-node lookup of its own entry and `out_internal` field, at
the children's round-2 state/output reads of the combine step and at its
final write-back lookup — with the single exception of the leaf case of
round 1, which, when the leaf's public key has no store entry, silently
skips storing its round-1 state and output and returns the store
unchanged. -/
theorem C9_amended_lookup_fatality (K St Out Sc M : Type) [BEq K]
    (P : Prims K St Out Sc M) (msg : M) (outs : List Out)
    (path : List (List K))
    (pkL : K) (mL : StateMap K St Out Sc)
    (hL : smGet mL pkL = none)
    (l1 : MTree K) (r1 : Option (MTree K)) (v1 : K)
    (mB mB1 : StateMap K St Out Sc)
    (hB1 : round1 P l1 mB = some mB1) (hB2 : smGet mB1 l1.value = none)
    (l2 r2 : MTree K) (v2 : K) (mC mC1 mC2 : StateMap K St Out Sc)
    (sC : NodeState K St Out Sc) (oC : Out)
    (hC1 : round1 P l2 mC = some mC1) (hC2 : smGet mC1 l2.value = some sC)
    (hC3 : sC.out = some oC) (hC4 : round1 P r2 mC1 = some mC2)
    (hC5 : smGet mC2 r2.value = none)
    (l3 : MTree K) (r3 : Option (MTree K)) (v3 : K)
    (mD : StateMap K St Out Sc)
    (hD : smGet mD v3 = none)
    (l4 : MTree K) (r4 : Option (MTree K)) (v4 : K)
    (mE : StateMap K St Out Sc) (sE : NodeState K St Out Sc)
    (hE1 : smGet mE v4 = some sE) (hE2 : sE.out_internal = none)
    (lv rv v5 : K) (mF : StateMap K St Out Sc)
    (hF : smGet mF lv = none)
    (lv2 rv2 v6 : K) (mG : StateMap K St Out Sc)
    (sG : NodeState K St Out Sc) (a : K) (b : Sc)
    (hG1 : smGet mG lv2 = some sG) (hG2 : sG.state_prime = some a)
    (hG3 : sG.out_prime = some b) (hG4 : smGet mG rv2 = none)
    (lv3 rv3 v7 : K) (mH : StateMap K St Out Sc)
    (sL sR : NodeState K St Out Sc) (a2 c : K) (b2 d : Sc)
    (hH1 : smGet mH lv3 = some sL) (hH2 : sL.state_prime = some a2)
    (hH3 : sL.out_prime = some b2) (hH4 : smGet mH rv3 = some sR)
    (hH5 : sR.state_prime = some c) (hH6 : sR.out_prime = some d)
    (hH7 : smGet mH v7 = none) :
    round1 P (.leaf pkL) mL = some mL ∧
    round2 P (.leaf pkL) mL msg outs path = none ∧
    round1 P (.node l1 r1 v1) mB = none ∧
    round1 P (.node l2 (some r2) v2) mC = none ∧
    round2 P (.node l3 r3 v3) mD msg outs path = none ∧
    round2 P (.node l4 r4 v4) mE msg outs path = none ∧
    round2_combine P lv rv v5 mF = none ∧
    round2_combine P lv2 rv2 v6 mG = none ∧
    round2_combine P lv3 rv3 v7 mH = none := by
  refine ⟨?_, ?_, ?_, ?_, ?_, ?_, ?_, ?_, ?_⟩
  · rw [round1, hL]
  · rw [round2, hL]
    rfl
  · cases r1 with
    | none =>
        rw [round1]
        simp only [Option.bind_eq_bind, hB1, Option.some_bind, hB2,
          Option.none_bind]
    | some rr =>
        rw [round1]
        simp only [Option.bind_eq_bind, hB1, Option.some_bind, hB2,
          Option.none_bind]
  · rw [round1]
    simp only [Option.bind_eq_bind, hC1, Option.some_bind, hC2, hC3, hC4,
      hC5, Option.none_bind]
  · cases r3 with
    | none =>
        rw [round2]
        simp only [Option.bind_eq_bind, hD, Option.none_bind]
    | some rr =>
        rw [round2]
        simp only [Option.bind_eq_bind, hD, Option.none_bind]
  · cases r4 with
    | none =>
        rw [round2]
        simp only [Option.bind_eq_bind, hE1, Option.some_bind, hE2,
          Option.none_bind]
    | some rr =>
        rw [round2]
        simp only [Option.bind_eq_bind, hE1, Option.some_bind, hE2,
          Option.none_bind]
  · simp only [round2_combine, Option.bind_eq_bind, hF, Option.none_bind]
  · simp only [round2_combine, Option.bind_eq_bind, hG1, Option.some_bind,
      hG2, hG3, hG4, Option.none_bind]
  · simp only [round2_combine, Option.bind_eq_bind, hH1, Option.some_bind,
      hH2, hH3, hH4, hH5, hH6, hH7, Option.none_bind]

/-- The all-`none` store entry used by the C9 witness. -/
def s0 : NodeState Nat Nat Nat Nat := ⟨none, none, none, none, none, none⟩

/-- The entry `s0` becomes after round 1 visits its leaf under `natPrims`
(`sign_round1 2 = (2, 3)`). -/
def st13 : NodeState Nat Nat Nat Nat := ⟨none, some 3, some 2, none, none, none⟩

/-- A store entry with round-2 state and output set, used by the C9
witness. -/
def spr : NodeState Nat Nat Nat Nat := ⟨none, none, none, none, some 5, some 6⟩

theorem C9_witness :
    round1 natPrims (.leaf 0) ([] : StateMap Nat Nat Nat Nat) = some [] ∧
    round2 natPrims (.leaf 0) ([] : StateMap Nat Nat Nat Nat) 0 [] [] =
      none ∧
    round1 natPrims (.node (.leaf 5) none 9) [] = none ∧
    round1 natPrims (.node (.leaf 1) (some (.leaf 4)) 9) [(1, s0)] = none ∧
    round2 natPrims (.node (.leaf 0) none 7) [] 0 [] [] = none ∧
    round2 natPrims (.node (.leaf 0) none 7) [(7, s0)] 0 [] [] = none ∧
    round2_combine natPrims 0 1 2 ([] : StateMap Nat Nat Nat Nat) = none ∧
    round2_combine natPrims 0 1 2 [(0, spr)] = none ∧
    round2_combine natPrims 0 1 2 [(0, spr), (1, spr)] = none :=
  C9_amended_lookup_fatality Nat Nat Nat Nat Nat natPrims 0 [] []
    0 [] rfl
    (.leaf 5) none 9 [] [] (by rw [round1]; rfl)
    (by simp [MTree.value, smGet])
    (.leaf 1) (.leaf 4) 9 [(1, s0)] [(1, st13)] [(1, st13)] st13 2
    (by rw [round1]; simp [smGet, smUpdate, natPrims, s0, st13])
    (by simp [MTree.value, smGet])
    (by simp [st13])
    (by rw [round1]; simp [smGet])
    (by simp [MTree.value, smGet])
    (.leaf 0) none 7 [] rfl
    (.leaf 0) none 7 [(7, s0)] s0 (by simp [smGet]) (by simp [s0])
    0 1 2 [] rfl
    0 1 2 [(0, spr)] spr 6 5 (by simp [smGet]) (by simp [spr])
    (by simp [spr]) (by simp [smGet])
    0 1 2 [(0, spr), (1, spr)] spr spr 6 6 5 5
    (by simp [smGet]) (by simp [spr]) (by simp [spr]) (by simp [smGet])
    (by simp [spr]) (by simp [spr]) (by simp [smGet])

end MainProofs
